import Mathlib

/-!
Verification of the `fral` crate: Okasaki-style persistent skew-binary
random-access lists.

The section `FralLib` is a shallow embedding of `src/arc.rs` (the primary,
`Arc`-based implementation); the nested namespace `FralLib.rc` embeds
`src/rc.rs` (the `Rc`-based twin).  `Arc<T>`/`Rc<T>` are shared immutable
pointers, so they are erased: a pointer to a value is modelled by the value
itself.  `usize` is modelled by `Nat`; the single place the source performs
deliberately wrapping arithmetic (`wrapping_sub(1)` in `Fral::uncons`) is
modelled by `usizeWrapPred`, which agrees with `usize::wrapping_sub(1)` on
every representable `usize` value (`n < 2 ^ 64`).
-/

namespace FralLib

variable {α : Type}

/-- Perfect binary tree of elements, from `enum Tree<T>` in `src/arc.rs`:
a leaf holds one element, a node holds one element and two subtrees. -/
inductive Tree (α : Type) where
  | Leaf (x : α)
  | Node (x : α) (t1 : Tree α) (t2 : Tree α)
deriving Repr

/-- Spine of size-tagged tree segments, from `enum Pair<T>` in `src/arc.rs`. -/
inductive Pair (α : Type) where
  | Nil
  | Cons (size : Nat) (tree : Tree α) (rest : Pair α)
deriving Repr

/-- `Tree::lookup(&self, size, index)` from `src/arc.rs`: index 0 is the
node's own element; otherwise descend into the half-sized subtrees. -/
def Tree.lookup : Tree α → Nat → Nat → Option α
  | .Leaf x, _, 0 => some x
  | .Node x _ _, _, 0 => some x
  | .Leaf _, _, _ + 1 => none
  | .Node _ t1 t2, size, i + 1 =>
    let half := size / 2
    if i + 1 ≤ half then t1.lookup half i
    else t2.lookup half (i + 1 - 1 - half)

/-- `Pair::get(&self, index)` from `src/arc.rs`: walk the spine, descending
into a segment's tree when the index falls inside its cached size. -/
def Pair.get : Pair α → Nat → Option α
  | .Nil, _ => none
  | .Cons size tree cdr, index =>
    if index < size then tree.lookup size index
    else cdr.get (index - size)

/-- `Pair::cons(&self, x)` from `src/arc.rs`: three-way case split on the
first two spine segments (merge when their sizes agree, push otherwise). -/
def Pair.cons : Pair α → α → Pair α
  | .Nil, x => .Cons 1 (.Leaf x) .Nil
  | .Cons size1 t1 (.Cons size2 t2 rest), x =>
    if size1 = size2 then
      .Cons (1 + size1 + size2) (.Node x t1 t2) rest
    else
      .Cons 1 (.Leaf x) (.Cons size1 t1 (.Cons size2 t2 rest))
  | .Cons size1 t1 .Nil, x => .Cons 1 (.Leaf x) (.Cons size1 t1 .Nil)

/-- `Pair::uncons(&self)` from `src/arc.rs`: drop a leaf segment, or split a
node segment into its two half-sized subtrees. -/
def Pair.uncons : Pair α → Option (α × Pair α)
  | .Nil => none
  | .Cons _ (.Leaf x) rest => some (x, rest)
  | .Cons size (.Node x t1 t2) rest =>
    let half := size / 2
    some (x, .Cons half t1 (.Cons half t2 rest))

/-- List handle, from `struct Fral<T>` in `src/arc.rs`: a cached total
length plus a pointer to the spine head. -/
structure Fral (α : Type) where
  size : Nat
  pair : Pair α
deriving Repr

/-- Semantics of `usize::wrapping_sub(1)`: agrees with the Rust operation on
every representable `usize` value (`n < 2 ^ 64`) and with `n - 1` beyond. -/
def usizeWrapPred (n : Nat) : Nat :=
  if n = 0 then 2 ^ 64 - 1 else n - 1

/-- `Fral::new()` / `Fral::default()` from `src/arc.rs`. -/
def Fral.new : Fral α := ⟨0, Pair.Nil⟩

/-- `Fral::get(&self, index)` from `src/arc.rs`. -/
def Fral.get (f : Fral α) (index : Nat) : Option α :=
  f.pair.get index

/-- `Fral::cons(&self, x)` from `src/arc.rs`. -/
def Fral.cons (f : Fral α) (x : α) : Fral α :=
  ⟨1 + f.size, f.pair.cons x⟩

/-- `Fral::uncons(&self)` from `src/arc.rs`: the candidate new length is
computed with `wrapping_sub` and used only when the spine is non-empty. -/
def Fral.uncons (f : Fral α) : Option (α × Fral α) :=
  let size := usizeWrapPred f.size
  f.pair.uncons.map fun p => (p.1, ⟨size, p.2⟩)

/-- `Fral::is_empty(&self)` from `src/arc.rs`. -/
def Fral.is_empty (f : Fral α) : Bool :=
  f.size == 0

/-- `Fral::len(&self)` from `src/arc.rs`. -/
def Fral.len (f : Fral α) : Nat :=
  f.size

/-- `FromIterator for Fral` from `src/arc.rs`: start from the empty list
and `cons` every produced item in order. -/
def Fral.fromIter (xs : List α) : Fral α :=
  xs.foldl Fral.cons Fral.new

/-- `Iter::last` from `src/arc.rs` under checked (debug-profile) integer
semantics: the subtraction `len - 1` overflows when `len == 0`, which is a
panic; the outer `none` models that panic, `some r` a normal return. -/
def Iter.lastChecked (f : Fral α) : Option (Option α) :=
  if f.len = 0 then none
  else some (f.get (f.len - 1))

/-- `Iter::last` from `src/arc.rs` under wrapping (release-profile) integer
semantics: `len - 1` wraps around to `2 ^ 64 - 1` when `len == 0`. -/
def Iter.lastWrapping (f : Fral α) : Option α :=
  f.get (usizeWrapPred f.len)

/-! Specification-side functions: element count, flattening to a `List`,
and the structural invariants maintained by `cons`/`uncons`. -/

/-- Number of elements stored in a tree. -/
def Tree.count : Tree α → Nat
  | .Leaf _ => 1
  | .Node _ t1 t2 => 1 + t1.count + t2.count

/-- Pre-order flattening of a tree: the node's element precedes both
subtrees in list order. -/
def Tree.toList : Tree α → List α
  | .Leaf x => [x]
  | .Node x t1 t2 => x :: (t1.toList ++ t2.toList)

/-- A perfect binary tree: both subtrees of every node hold equally many
elements and are themselves perfect. -/
def Tree.Perfect : Tree α → Prop
  | .Leaf _ => True
  | .Node _ t1 t2 => t1.count = t2.count ∧ t1.Perfect ∧ t2.Perfect

/-- Front-to-back flattening of a spine. -/
def Pair.toList : Pair α → List α
  | .Nil => []
  | .Cons _ t rest => t.toList ++ rest.toList

/-- The cached segment sizes of a spine, front to back. -/
def Pair.sizes : Pair α → List Nat
  | .Nil => []
  | .Cons s _ rest => s :: rest.sizes

/-- Per-segment well-formedness: every cached size is the actual element
count of its tree, and every tree is perfect. -/
def Pair.WFsegs : Pair α → Prop
  | .Nil => True
  | .Cons s t rest => s = t.count ∧ t.Perfect ∧ rest.WFsegs

/-- Rebuild a spine by consing the elements of a list from last to first;
`consAll (x :: xs) = (consAll xs).cons x`. -/
def consAll (l : List α) : Pair α :=
  l.foldr (fun x p => p.cons x) Pair.Nil

/-- A skew-binary digit value: `2 ^ k - 1` for some positive exponent. -/
def SkewForm (s : Nat) : Prop :=
  ∃ k, 0 < k ∧ s = 2 ^ k - 1

/-- The strong skew-binary spine invariant on a front-to-back size list:
every size is of the form `2 ^ k - 1`, the sizes are non-decreasing, and
they are strictly increasing from the second one on (so only the first two
may coincide). -/
def SkewSizes (l : List Nat) : Prop :=
  (∀ s ∈ l, SkewForm s) ∧ List.Chain' (· ≤ ·) l ∧ List.Chain' (· < ·) l.tail

/-- Full invariant of a list handle: the cached length is the element
count, every segment is well formed, the sizes obey the strong skew-binary
invariant, and the spine is in the canonical form produced by `consAll`. -/
def Fral.Inv (f : Fral α) : Prop :=
  f.size = f.pair.toList.length ∧ f.pair.WFsegs ∧ SkewSizes f.pair.sizes ∧
    f.pair = consAll f.pair.toList

/-- Lists reachable from the empty list by `cons` and `uncons`. -/
inductive Fral.Reachable : Fral α → Prop where
  | new : Fral.Reachable Fral.new
  | cons {f : Fral α} (x : α) : Fral.Reachable f → Fral.Reachable (f.cons x)
  | uncons {f f' : Fral α} {x : α} :
      Fral.Reachable f → f.uncons = some (x, f') → Fral.Reachable f'

/-! Basic facts about flattening, counting and the two spine operations. -/

theorem Tree.toList_length (t : Tree α) : t.toList.length = t.count := by
  induction t with
  | Leaf x => rfl
  | Node x t1 t2 ih1 ih2 =>
    simp [Tree.toList, Tree.count, ih1, ih2]
    omega

theorem Tree.toList_ne_nil (t : Tree α) : t.toList ≠ [] := by
  cases t <;> simp [Tree.toList]

theorem Pair.toList_cons (p : Pair α) (x : α) :
    (p.cons x).toList = x :: p.toList := by
  match p with
  | .Nil => rfl
  | .Cons s1 t1 .Nil => rfl
  | .Cons s1 t1 (.Cons s2 t2 rest) =>
    by_cases h : s1 = s2 <;>
      simp [Pair.cons, h, Pair.toList, Tree.toList, List.append_assoc]

theorem Pair.uncons_toList {p q : Pair α} {x : α}
    (h : p.uncons = some (x, q)) : p.toList = x :: q.toList := by
  match p with
  | .Nil => simp [Pair.uncons] at h
  | .Cons s (.Leaf y) rest =>
    simp [Pair.uncons] at h
    obtain ⟨rfl, rfl⟩ := h
    rfl
  | .Cons s (.Node y t1 t2) rest =>
    simp [Pair.uncons] at h
    obtain ⟨rfl, rfl⟩ := h
    simp [Pair.toList, Tree.toList, List.append_assoc]

/-- `uncons` is a left inverse of `cons` on raw spines: no invariant is
needed, because the merge case stores size `1 + s + s`, whose half is `s`. -/
theorem Pair.uncons_cons (p : Pair α) (x : α) :
    (p.cons x).uncons = some (x, p) := by
  match p with
  | .Nil => rfl
  | .Cons s1 t1 .Nil => rfl
  | .Cons s1 t1 (.Cons s2 t2 rest) =>
    by_cases h : s1 = s2
    · subst h
      have hhalf : (1 + s1 + s1) / 2 = s1 := by omega
      simp [Pair.cons, Pair.uncons, hhalf]
    · simp [Pair.cons, h, Pair.uncons]

theorem Pair.uncons_eq_none_iff (p : Pair α) :
    p.uncons = none ↔ p = .Nil := by
  match p with
  | .Nil => simp [Pair.uncons]
  | .Cons s (.Leaf y) rest => simp [Pair.uncons]
  | .Cons s (.Node y t1 t2) rest => simp [Pair.uncons]

theorem Pair.toList_nil_iff (p : Pair α) : p.toList = [] ↔ p = .Nil := by
  match p with
  | .Nil => simp [Pair.toList]
  | .Cons s t rest =>
    simp [Pair.toList]
    intro h
    exact absurd h t.toList_ne_nil

/-! Preservation of per-segment well-formedness. -/

theorem Pair.WFsegs_cons {p : Pair α} (hp : p.WFsegs) (x : α) :
    (p.cons x).WFsegs := by
  match p with
  | .Nil => simp [Pair.cons, Pair.WFsegs, Tree.count, Tree.Perfect]
  | .Cons s1 t1 .Nil =>
    obtain ⟨h1, h2, h3⟩ := hp
    exact ⟨rfl, trivial, h1, h2, trivial⟩
  | .Cons s1 t1 (.Cons s2 t2 rest) =>
    obtain ⟨h1, h2, h3, h4, h5⟩ := hp
    by_cases h : s1 = s2
    · subst h
      have hred : (Pair.Cons s1 t1 (Pair.Cons s1 t2 rest)).cons x
          = .Cons (1 + s1 + s1) (.Node x t1 t2) rest := by
        simp [Pair.cons]
      rw [hred]
      refine ⟨?_, ⟨by omega, h2, h4⟩, h5⟩
      simp [Tree.count]
      omega
    · simp only [Pair.cons, if_neg h]
      exact ⟨rfl, trivial, h1, h2, h3, h4, h5⟩

theorem Pair.WFsegs_uncons {p q : Pair α} {x : α}
    (hp : p.WFsegs) (h : p.uncons = some (x, q)) : q.WFsegs := by
  match p with
  | .Nil => simp [Pair.uncons] at h
  | .Cons s (.Leaf y) rest =>
    simp [Pair.uncons] at h
    obtain ⟨rfl, rfl⟩ := h
    exact hp.2.2
  | .Cons s (.Node y t1 t2) rest =>
    simp [Pair.uncons] at h
    obtain ⟨rfl, rfl⟩ := h
    obtain ⟨h1, ⟨hc, hp1, hp2⟩, h3⟩ := hp
    have hhalf : s / 2 = t1.count := by
      simp [Tree.count] at h1
      omega
    exact ⟨hhalf, hp1, hhalf.trans hc, hp2, h3⟩

/-! Lookup computes list indexing. -/

theorem Tree.lookup_eq {t : Tree α} (ht : t.Perfect) (i : Nat) :
    t.lookup t.count i = t.toList[i]? := by
  induction t generalizing i with
  | Leaf x =>
    match i with
    | 0 => rfl
    | i + 1 => rfl
  | Node x t1 t2 ih1 ih2 =>
    obtain ⟨hc, hp1, hp2⟩ := ht
    have hlen1 : t1.toList.length = t1.count := t1.toList_length
    match i with
    | 0 => simp [Tree.lookup, Tree.toList]
    | i + 1 =>
      have hhalf : (Tree.Node x t1 t2).count / 2 = t1.count := by
        simp [Tree.count]
        omega
      simp only [Tree.lookup, hhalf, Tree.toList, List.getElem?_cons_succ]
      by_cases hle : i + 1 ≤ t1.count
      · rw [if_pos hle, ih1 hp1, List.getElem?_append]
        rw [if_pos (by omega : i < t1.toList.length)]
      · rw [if_neg hle]
        have heq : i + 1 - 1 - t1.count = i - t1.count := by omega
        rw [heq]
        have h2 : t2.lookup t1.count (i - t1.count) = t2.toList[i - t1.count]? := by
          rw [hc]
          exact ih2 hp2 _
        rw [h2, List.getElem?_append_right (by omega), hlen1]

theorem Pair.get_eq {p : Pair α} (hp : p.WFsegs) (i : Nat) :
    p.get i = p.toList[i]? := by
  induction p generalizing i with
  | Nil => simp [Pair.get, Pair.toList]
  | Cons s t rest ih =>
    obtain ⟨h1, h2, h3⟩ := hp
    subst h1
    have hlen : t.toList.length = t.count := t.toList_length
    simp only [Pair.get, Pair.toList]
    by_cases hi : i < t.count
    · rw [if_pos hi, Tree.lookup_eq h2, List.getElem?_append]
      rw [if_pos (by omega : i < t.toList.length)]
    · rw [if_neg hi, ih h3, List.getElem?_append_right (by omega), hlen]

/-! Arithmetic of skew-binary digit values. -/

theorem SkewForm.one_le {s : Nat} (h : SkewForm s) : 1 ≤ s := by
  obtain ⟨k, hk, rfl⟩ := h
  have h1 : 1 < 2 ^ k := Nat.one_lt_two_pow_iff.mpr (by omega)
  omega

theorem SkewForm.merge {s : Nat} (h : SkewForm s) : SkewForm (1 + s + s) := by
  obtain ⟨k, hk, rfl⟩ := h
  refine ⟨k + 1, by omega, ?_⟩
  have h1 : 1 ≤ 2 ^ k := Nat.one_le_two_pow
  have h2 : 2 ^ (k + 1) = 2 ^ k * 2 := Nat.pow_succ 2 k
  omega

theorem SkewForm.lt_imp {a b : Nat} (ha : SkewForm a) (hb : SkewForm b)
    (h : a < b) : 1 + a + a ≤ b := by
  obtain ⟨j, hj, rfl⟩ := ha
  obtain ⟨k, hk, rfl⟩ := hb
  have h1 : 1 ≤ 2 ^ j := Nat.one_le_two_pow
  have h2 : 1 ≤ 2 ^ k := Nat.one_le_two_pow
  have hjk : j < k := by
    by_contra hc
    have h3 : 2 ^ k ≤ 2 ^ j := Nat.pow_le_pow_right (by omega) (by omega)
    omega
  have h4 : 2 ^ (j + 1) ≤ 2 ^ k := Nat.pow_le_pow_right (by omega) (by omega)
  have h5 : 2 ^ (j + 1) = 2 ^ j * 2 := Nat.pow_succ 2 j
  omega

theorem SkewForm.half {s : Nat} (h : SkewForm s) (h3 : 3 ≤ s) :
    SkewForm (s / 2) ∧ 1 + s / 2 + s / 2 = s := by
  obtain ⟨k, hk, rfl⟩ := h
  have hk2 : 2 ≤ k := by
    by_contra hc
    have hk1 : k = 1 := by omega
    subst hk1
    norm_num at h3
  have hks : k - 1 + 1 = k := by omega
  have h2 : 2 ^ k = 2 ^ (k - 1) * 2 := by
    conv_lhs => rw [← hks]
    exact Nat.pow_succ 2 (k - 1)
  have h1 : 1 ≤ 2 ^ (k - 1) := Nat.one_le_two_pow
  exact ⟨⟨k - 1, by omega, by omega⟩, by omega⟩

theorem Tree.one_le_count (t : Tree α) : 1 ≤ t.count := by
  cases t with
  | Leaf x => simp [Tree.count]
  | Node x t1 t2 =>
    simp [Tree.count]
    omega

/-! Preservation of the strong skew-binary size invariant. -/

theorem skewSizes_cons {p : Pair α} (h : SkewSizes p.sizes) (x : α) :
    SkewSizes ((p.cons x).sizes) := by
  match p with
  | .Nil =>
    refine ⟨?_, by simp [Pair.cons, Pair.sizes], by simp [Pair.cons, Pair.sizes]⟩
    intro s hs
    simp [Pair.cons, Pair.sizes] at hs
    exact ⟨1, by omega, by omega⟩
  | .Cons s1 t1 .Nil =>
    obtain ⟨hform, _, _⟩ := h
    have hs1 : SkewForm s1 := hform s1 (by simp [Pair.sizes])
    refine ⟨?_, ?_, ?_⟩
    · intro s hs
      simp [Pair.cons, Pair.sizes] at hs
      rcases hs with rfl | rfl
      · exact ⟨1, by omega, by omega⟩
      · exact hs1
    · simp [Pair.cons, Pair.sizes, List.chain'_cons]
      exact hs1.one_le
    · simp [Pair.cons, Pair.sizes]
  | .Cons s1 t1 (.Cons s2 t2 rest) =>
    obtain ⟨hform, hle, hlt⟩ := h
    have hs1 : SkewForm s1 := hform s1 (by simp [Pair.sizes])
    have hs2 : SkewForm s2 := hform s2 (by simp [Pair.sizes])
    have h12 : s1 ≤ s2 := (List.chain'_cons.mp hle).1
    by_cases hcase : s1 = s2
    · subst hcase
      have hred : ((Pair.Cons s1 t1 (Pair.Cons s1 t2 rest)).cons x).sizes
          = (1 + s1 + s1) :: rest.sizes := by
        simp [Pair.cons, Pair.sizes]
      rw [hred]
      have hltrest : List.Chain' (· < ·) (s1 :: rest.sizes) := hlt
      refine ⟨?_, ?_, ?tl⟩
      case tl =>
        simp only [List.tail_cons]
        exact hltrest.tail
      · intro s hs
        simp at hs
        rcases hs with rfl | hs
        · exact hs1.merge
        · exact hform s (by simp [Pair.sizes, hs])
      · rw [List.chain'_cons']
        refine ⟨?_, (List.Chain'.tail hltrest).imp fun a b => Nat.le_of_lt⟩
        intro r hr
        have hrmem : r ∈ rest.sizes := List.mem_of_mem_head? hr
        have hrform : SkewForm r := hform r (by simp [Pair.sizes, hrmem])
        have hs1r : s1 < r := (List.chain'_cons'.mp hltrest).1 r hr
        exact hs1.lt_imp hrform hs1r
    · have hred : ((Pair.Cons s1 t1 (Pair.Cons s2 t2 rest)).cons x).sizes
          = 1 :: s1 :: s2 :: rest.sizes := by
        simp [Pair.cons, hcase, Pair.sizes]
      rw [hred]
      refine ⟨?_, ?_, ?_⟩
      · intro s hs
        simp at hs
        rcases hs with rfl | hs
        · exact ⟨1, by omega, by omega⟩
        · exact hform s (by simp [Pair.sizes]; simpa using hs)
      · rw [List.chain'_cons]
        exact ⟨hs1.one_le, hle⟩
      · simp only [List.tail_cons]
        rw [List.chain'_cons]
        exact ⟨by omega, hlt⟩

theorem skewSizes_uncons {p q : Pair α} {x : α} (hw : p.WFsegs)
    (h : SkewSizes p.sizes) (hu : p.uncons = some (x, q)) :
    SkewSizes q.sizes := by
  match p with
  | .Nil => simp [Pair.uncons] at hu
  | .Cons s (.Leaf y) rest =>
    simp [Pair.uncons] at hu
    obtain ⟨rfl, rfl⟩ := hu
    obtain ⟨hform, hle, hlt⟩ := h
    exact ⟨fun s hs => hform s (by simp [Pair.sizes, hs]),
      List.Chain'.tail hle, List.Chain'.tail hlt⟩
  | .Cons s (.Node y t1 t2) rest =>
    simp [Pair.uncons] at hu
    obtain ⟨rfl, rfl⟩ := hu
    obtain ⟨hform, hle, hlt⟩ := h
    obtain ⟨hcount, ⟨hceq, _, _⟩, _⟩ := hw
    have hs : SkewForm s := hform s (by simp [Pair.sizes])
    have h3 : 3 ≤ s := by
      have h1 := t1.one_le_count
      have h2 := t2.one_le_count
      simp [Tree.count] at hcount
      omega
    obtain ⟨hhform, hhsum⟩ := hs.half h3
    have hhalf_lt : s / 2 < s := by omega
    have hred : (Pair.Cons (s / 2) t1 (Pair.Cons (s / 2) t2 rest)).sizes
        = s / 2 :: s / 2 :: rest.sizes := by
      simp [Pair.sizes]
    rw [hred]
    have hhead : ∀ r ∈ rest.sizes.head?, s ≤ r := (List.chain'_cons'.mp hle).1
    refine ⟨?_, ?_, ?_⟩
    · intro u hu'
      simp at hu'
      rcases hu' with rfl | hu'
      · exact hhform
      · exact hform u (by simp [Pair.sizes]; exact Or.inr hu')
    · rw [List.chain'_cons, List.chain'_cons']
      refine ⟨le_refl _, ?_, (List.chain'_cons'.mp hle).2⟩
      intro r hr
      have := hhead r hr
      omega
    · simp only [List.tail_cons]
      rw [List.chain'_cons']
      refine ⟨?_, hlt⟩
      intro r hr
      have := hhead r hr
      omega

/-! The full handle invariant holds for every reachable list. -/

theorem consAll_cons (x : α) (l : List α) :
    consAll (x :: l) = (consAll l).cons x := rfl

theorem Fral.uncons_elim {f f' : Fral α} {x : α}
    (hu : f.uncons = some (x, f')) :
    f.pair.uncons = some (x, f'.pair) ∧ f'.size = usizeWrapPred f.size := by
  unfold Fral.uncons at hu
  cases hpu : f.pair.uncons with
  | none => rw [hpu] at hu; simp at hu
  | some p =>
    rw [hpu] at hu
    simp at hu
    obtain ⟨rfl, rfl⟩ := hu
    exact ⟨rfl, rfl⟩

theorem Fral.inv_new : (Fral.new : Fral α).Inv := by
  refine ⟨rfl, trivial, ⟨?_, List.chain'_nil, List.chain'_nil⟩, rfl⟩
  intro s hs
  simp [Fral.new, Pair.sizes] at hs

theorem Fral.Inv.cons {f : Fral α} (h : f.Inv) (x : α) : (f.cons x).Inv := by
  obtain ⟨hsize, hwf, hskew, hcanon⟩ := h
  refine ⟨?_, Pair.WFsegs_cons hwf x, skewSizes_cons hskew x, ?_⟩
  · simp [Fral.cons, Pair.toList_cons, hsize]
    omega
  · show f.pair.cons x = consAll ((f.pair.cons x).toList)
    rw [Pair.toList_cons, consAll_cons, ← hcanon]

theorem Fral.Inv.unconsStep {f f' : Fral α} {x : α} (h : f.Inv)
    (hu : f.uncons = some (x, f')) : f'.Inv := by
  obtain ⟨hpu, hsz⟩ := Fral.uncons_elim hu
  obtain ⟨hsize, hwf, hskew, hcanon⟩ := h
  have htl : f.pair.toList = x :: f'.pair.toList := Pair.uncons_toList hpu
  have hpos : 1 ≤ f.size := by
    rw [hsize, htl]
    simp
  refine ⟨?_, Pair.WFsegs_uncons hwf hpu, skewSizes_uncons hwf hskew hpu, ?_⟩
  · rw [hsz, usizeWrapPred, if_neg (by omega), hsize, htl]
    simp
  · have hc2 : f.pair = (consAll (f'.pair.toList)).cons x := by
      rw [hcanon, htl, consAll_cons]
    have hc3 : f.pair.uncons = some (x, consAll (f'.pair.toList)) := by
      rw [hc2]
      exact Pair.uncons_cons _ x
    rw [hpu] at hc3
    simp at hc3
    exact hc3

theorem Fral.Reachable.inv {f : Fral α} (h : f.Reachable) : f.Inv := by
  induction h with
  | new => exact Fral.inv_new
  | cons x _ ih => exact ih.cons x
  | uncons _ hu ih => exact ih.unconsStep hu

theorem Fral.get_eq_toList {f : Fral α} (h : f.Inv) (i : Nat) :
    f.get i = f.pair.toList[i]? :=
  Pair.get_eq h.2.1 i

theorem Pair.uncons_of_ne_nil {p : Pair α} (h : p ≠ .Nil) :
    ∃ y q, p.uncons = some (y, q) := by
  match p with
  | .Nil => exact absurd rfl h
  | .Cons s (.Leaf y) rest => exact ⟨y, rest, rfl⟩
  | .Cons s (.Node y t1 t2) rest => exact ⟨y, _, rfl⟩

theorem Fral.uncons_some_of_nonempty {f : Fral α} (h : f.Inv)
    (hne : f.is_empty = false) : ∃ x f', f.uncons = some (x, f') := by
  have hsz : f.size ≠ 0 := by
    simpa [Fral.is_empty] using hne
  have hndl : f.pair ≠ .Nil := by
    intro hnil
    rw [h.1, (Pair.toList_nil_iff f.pair).mpr hnil] at hsz
    simp at hsz
  obtain ⟨y, q, hq⟩ := Pair.uncons_of_ne_nil hndl
  exact ⟨y, ⟨usizeWrapPred f.size, q⟩, by simp [Fral.uncons, hq]⟩

/-! Order preservation of `cons` with respect to `get`, on raw spines:
these hold for every spine, with no invariant hypothesis. -/

theorem Pair.get_cons_zero (p : Pair α) (x : α) : (p.cons x).get 0 = some x := by
  match p with
  | .Nil => rfl
  | .Cons s1 t1 .Nil => rfl
  | .Cons s1 t1 (.Cons s2 t2 rest) =>
    by_cases h : s1 = s2
    · subst h
      have hred : (Pair.Cons s1 t1 (Pair.Cons s1 t2 rest)).cons x
          = .Cons (1 + s1 + s1) (.Node x t1 t2) rest := by
        simp [Pair.cons]
      rw [hred]
      simp only [Pair.get]
      rw [if_pos (by omega)]
      simp [Tree.lookup]
    · simp [Pair.cons, h, Pair.get, Tree.lookup]

theorem Pair.get_cons_succ (p : Pair α) (x : α) (i : Nat) :
    (p.cons x).get (i + 1) = p.get i := by
  match p with
  | .Nil =>
    simp only [Pair.cons, Pair.get]
    rw [if_neg (by omega)]
  | .Cons s1 t1 .Nil =>
    simp only [Pair.cons, Pair.get]
    rw [if_neg (by omega)]
    simp only [Nat.add_sub_cancel]
  | .Cons s1 t1 (.Cons s2 t2 rest) =>
    by_cases h : s1 = s2
    · subst h
      have hred : (Pair.Cons s1 t1 (Pair.Cons s1 t2 rest)).cons x
          = .Cons (1 + s1 + s1) (.Node x t1 t2) rest := by
        simp [Pair.cons]
      rw [hred]
      simp only [Pair.get]
      have hhalf : (1 + s1 + s1) / 2 = s1 := by omega
      by_cases h1 : i < s1
      · rw [if_pos (by omega : i + 1 < 1 + s1 + s1), if_pos h1]
        simp only [Tree.lookup, hhalf]
        rw [if_pos (by omega : i + 1 ≤ s1)]
      · by_cases h2 : i < s1 + s1
        · rw [if_pos (by omega : i + 1 < 1 + s1 + s1), if_neg h1]
          simp only [Tree.lookup, hhalf]
          rw [if_neg (by omega : ¬ i + 1 ≤ s1)]
          rw [if_pos (by omega : i - s1 < s1)]
          simp only [Nat.add_sub_cancel]
        · rw [if_neg (by omega : ¬ i + 1 < 1 + s1 + s1), if_neg h1]
          rw [if_neg (by omega : ¬ i - s1 < s1)]
          congr 1
          omega
    · have hred : (Pair.Cons s1 t1 (Pair.Cons s2 t2 rest)).cons x
          = .Cons 1 (.Leaf x) (.Cons s1 t1 (.Cons s2 t2 rest)) := by
        simp [Pair.cons, h]
      rw [hred]
      simp only [Pair.get]
      rw [if_neg (by omega : ¬ i + 1 < 1)]
      simp only [Nat.add_sub_cancel]

/-! Auxiliary facts for the stated (weak) invariant of claim C5 and for
construction from a sequence. -/

/-- No three consecutive spine segments share the same size. -/
def AtMostTwoConsecEq (l : List Nat) : Prop :=
  ∀ i s, l[i]? = some s → l[i + 1]? = some s → ¬ l[i + 2]? = some s

/-- The invariant exactly as the specification states it: correct cached
sizes, perfect trees, sizes of the form `2 ^ k - 1` with non-decreasing
exponents, and at most two consecutive segments of equal size. -/
def Fral.SpecInv (f : Fral α) : Prop :=
  f.pair.WFsegs ∧ (∀ s ∈ f.pair.sizes, SkewForm s) ∧
    List.Chain' (· ≤ ·) f.pair.sizes ∧ AtMostTwoConsecEq f.pair.sizes

theorem SkewSizes.atMostTwo {l : List Nat} (h : SkewSizes l) :
    AtMostTwoConsecEq l := by
  intro i s h1 h2 h3
  obtain ⟨-, -, hlt⟩ := h
  have t2 : l.tail[i]? = some s := by
    cases l with
    | nil => simp at h1
    | cons a l' => simpa using h2
  have t3 : l.tail[i + 1]? = some s := by
    cases l with
    | nil => simp at h1
    | cons a l' => simpa using h3
  obtain ⟨hi2, he2⟩ := List.getElem?_eq_some.mp t2
  obtain ⟨hi3, he3⟩ := List.getElem?_eq_some.mp t3
  have hrel := List.chain'_iff_get.mp hlt i (by omega)
  rw [List.get_eq_getElem, List.get_eq_getElem] at hrel
  simp only [he2, he3] at hrel
  omega

theorem Fral.Inv.specInv {f : Fral α} (h : f.Inv) : f.SpecInv :=
  ⟨h.2.1, h.2.2.1.1, h.2.2.1.2.1, h.2.2.1.atMostTwo⟩

theorem foldl_cons_reachable (xs : List α) {f : Fral α} (h : f.Reachable) :
    (xs.foldl Fral.cons f).Reachable := by
  induction xs generalizing f with
  | nil => exact h
  | cons x xs ih => exact ih (h.cons x)

theorem fromIter_reachable (xs : List α) : (Fral.fromIter xs).Reachable :=
  foldl_cons_reachable xs Fral.Reachable.new

theorem foldl_cons_toList (xs : List α) (f : Fral α) :
    (xs.foldl Fral.cons f).pair.toList = xs.reverse ++ f.pair.toList := by
  induction xs generalizing f with
  | nil => simp
  | cons x xs ih =>
    show (xs.foldl Fral.cons (f.cons x)).pair.toList = _
    rw [ih]
    show xs.reverse ++ (f.pair.cons x).toList = _
    rw [Pair.toList_cons]
    simp

theorem fromIter_toList (xs : List α) :
    (Fral.fromIter xs).pair.toList = xs.reverse := by
  rw [Fral.fromIter, foldl_cons_toList]
  simp [Fral.new, Pair.toList]

/-! Derived structural equality, as produced by `#[derive(PartialEq, Eq)]`
on `Fral`, `Pair` and `Tree` in `src/arc.rs` (where the nested `Arc`s
compare their pointees): field-wise recursive comparison. -/

def Tree.beq [DecidableEq α] : Tree α → Tree α → Bool
  | .Leaf x, .Leaf y => decide (x = y)
  | .Node x a b, .Node y c d => decide (x = y) && a.beq c && b.beq d
  | .Leaf _, .Node _ _ _ => false
  | .Node _ _ _, .Leaf _ => false

def Pair.beq [DecidableEq α] : Pair α → Pair α → Bool
  | .Nil, .Nil => true
  | .Cons s t r, .Cons s' t' r' => decide (s = s') && t.beq t' && r.beq r'
  | .Nil, .Cons _ _ _ => false
  | .Cons _ _ _, .Nil => false

def Fral.beq [DecidableEq α] (f g : Fral α) : Bool :=
  decide (f.size = g.size) && f.pair.beq g.pair

theorem Tree.beq_refl_tree [DecidableEq α] (t : Tree α) : t.beq t = true := by
  induction t with
  | Leaf x => simp [Tree.beq]
  | Node x a b iha ihb => simp [Tree.beq, iha, ihb]

theorem Pair.beq_refl_pair [DecidableEq α] (p : Pair α) : p.beq p = true := by
  induction p with
  | Nil => rfl
  | Cons s t r ih => simp [Pair.beq, ih, Tree.beq_refl_tree]

theorem Fral.beq_refl_fral [DecidableEq α] (f : Fral α) : f.beq f = true := by
  simp [Fral.beq, Pair.beq_refl_pair]

end FralLib

namespace FralLib.rc

variable {α : Type}

/-- Perfect binary tree from `enum Tree<T>` in `src/rc.rs`. -/
inductive Tree (α : Type) where
  | Leaf (x : α)
  | Node (x : α) (t1 : Tree α) (t2 : Tree α)

/-- Spine from `enum Pair<T>` in `src/rc.rs`. -/
inductive Pair (α : Type) where
  | Nil
  | Cons (size : Nat) (tree : Tree α) (rest : Pair α)

/-- `Tree::lookup` from `src/rc.rs`. -/
def Tree.lookup : Tree α → Nat → Nat → Option α
  | .Leaf x, _, 0 => some x
  | .Node x _ _, _, 0 => some x
  | .Leaf _, _, _ + 1 => none
  | .Node _ t1 t2, size, i + 1 =>
    let half := size / 2
    if i + 1 ≤ half then t1.lookup half i
    else t2.lookup half (i + 1 - 1 - half)

/-- `Pair::get` from `src/rc.rs`. -/
def Pair.get : Pair α → Nat → Option α
  | .Nil, _ => none
  | .Cons size tree cdr, index =>
    if index < size then tree.lookup size index
    else cdr.get (index - size)

/-- `Pair::cons` from `src/rc.rs`. -/
def Pair.cons : Pair α → α → Pair α
  | .Nil, x => .Cons 1 (.Leaf x) .Nil
  | .Cons size1 t1 (.Cons size2 t2 rest), x =>
    if size1 = size2 then
      .Cons (1 + size1 + size2) (.Node x t1 t2) rest
    else
      .Cons 1 (.Leaf x) (.Cons size1 t1 (.Cons size2 t2 rest))
  | .Cons size1 t1 .Nil, x => .Cons 1 (.Leaf x) (.Cons size1 t1 .Nil)

/-- `Pair::uncons` from `src/rc.rs`. -/
def Pair.uncons : Pair α → Option (α × Pair α)
  | .Nil => none
  | .Cons _ (.Leaf x) rest => some (x, rest)
  | .Cons size (.Node x t1 t2) rest =>
    let half := size / 2
    some (x, .Cons half t1 (.Cons half t2 rest))

/-- `struct Fral<T>` from `src/rc.rs`. -/
structure Fral (α : Type) where
  size : Nat
  pair : Pair α

/-- `Fral::new()` from `src/rc.rs`. -/
def Fral.new : Fral α := ⟨0, Pair.Nil⟩

/-- `Fral::get` from `src/rc.rs`. -/
def Fral.get (f : Fral α) (index : Nat) : Option α :=
  f.pair.get index

/-- `Fral::cons` from `src/rc.rs`. -/
def Fral.cons (f : Fral α) (x : α) : Fral α :=
  ⟨1 + f.size, f.pair.cons x⟩

/-- `Fral::uncons` from `src/rc.rs`. -/
def Fral.uncons (f : Fral α) : Option (α × Fral α) :=
  let size := usizeWrapPred f.size
  f.pair.uncons.map fun p => (p.1, ⟨size, p.2⟩)

/-- `Fral::is_empty` from `src/rc.rs`. -/
def Fral.is_empty (f : Fral α) : Bool :=
  f.size == 0

/-- `Fral::len` from `src/rc.rs`. -/
def Fral.len (f : Fral α) : Nat :=
  f.size

/-- `FromIterator for Fral` from `src/rc.rs`. -/
def Fral.fromIter (xs : List α) : Fral α :=
  xs.foldl Fral.cons Fral.new

end FralLib.rc

namespace FralLib

variable {α : Type}

/-! Correspondence between the `Arc`-based and `Rc`-based implementations:
the structural identity translation commutes with every operation. -/

/-- Translate an `Arc`-based tree to the `Rc`-based representation. -/
def Tree.toRc : Tree α → rc.Tree α
  | .Leaf x => .Leaf x
  | .Node x t1 t2 => .Node x t1.toRc t2.toRc

/-- Translate an `Arc`-based spine to the `Rc`-based representation. -/
def Pair.toRc : Pair α → rc.Pair α
  | .Nil => .Nil
  | .Cons s t rest => .Cons s t.toRc rest.toRc

/-- Translate an `Arc`-based list handle to the `Rc`-based representation. -/
def Fral.toRc (f : Fral α) : rc.Fral α :=
  ⟨f.size, f.pair.toRc⟩

theorem Tree.toRc_lookup (t : Tree α) (size i : Nat) :
    t.toRc.lookup size i = t.lookup size i := by
  induction t generalizing size i with
  | Leaf x =>
    match i with
    | 0 => rfl
    | i + 1 => rfl
  | Node x t1 t2 ih1 ih2 =>
    match i with
    | 0 => rfl
    | i + 1 =>
      simp only [Tree.toRc, Tree.lookup, rc.Tree.lookup, ih1, ih2]

theorem Pair.toRc_get_spine (p : Pair α) (i : Nat) :
    p.toRc.get i = p.get i := by
  induction p generalizing i with
  | Nil => rfl
  | Cons s t rest ih =>
    simp only [Pair.toRc, Pair.get, rc.Pair.get, Tree.toRc_lookup, ih]

theorem Pair.toRc_cons_spine (p : Pair α) (x : α) :
    (p.cons x).toRc = p.toRc.cons x := by
  match p with
  | .Nil => rfl
  | .Cons s1 t1 .Nil => rfl
  | .Cons s1 t1 (.Cons s2 t2 rest) =>
    by_cases h : s1 = s2 <;>
      simp [Pair.cons, rc.Pair.cons, Pair.toRc, Tree.toRc, h]

theorem Pair.toRc_uncons_spine (p : Pair α) :
    p.toRc.uncons = p.uncons.map fun q => (q.1, q.2.toRc) := by
  match p with
  | .Nil => rfl
  | .Cons s (.Leaf x) rest => rfl
  | .Cons s (.Node x t1 t2) rest => rfl

theorem Fral.toRc_get (f : Fral α) (i : Nat) :
    f.toRc.get i = f.get i :=
  Pair.toRc_get_spine f.pair i

theorem Fral.toRc_cons (f : Fral α) (x : α) :
    (f.cons x).toRc = f.toRc.cons x := by
  show Fral.toRc ⟨1 + f.size, f.pair.cons x⟩ = _
  simp [Fral.toRc, rc.Fral.cons, Pair.toRc_cons_spine]

theorem Fral.toRc_uncons (f : Fral α) :
    f.toRc.uncons = f.uncons.map fun q => (q.1, q.2.toRc) := by
  show (f.pair.toRc.uncons.map fun p =>
        (p.1, (⟨usizeWrapPred f.size, p.2⟩ : rc.Fral α)))
      = (f.pair.uncons.map fun p =>
        (p.1, (⟨usizeWrapPred f.size, p.2⟩ : Fral α))).map fun q => (q.1, q.2.toRc)
  rw [Pair.toRc_uncons_spine]
  cases f.pair.uncons with
  | none => rfl
  | some q => rfl

theorem Fral.toRc_fromIter (xs : List α) :
    (Fral.fromIter xs).toRc = rc.Fral.fromIter xs := by
  have aux : ∀ (ys : List α) (f : Fral α),
      (ys.foldl Fral.cons f).toRc = ys.foldl rc.Fral.cons f.toRc := by
    intro ys
    induction ys with
    | nil => intro f; rfl
    | cons y ys ih =>
      intro f
      show (ys.foldl Fral.cons (f.cons y)).toRc = _
      rw [ih, Fral.toRc_cons]
      rfl
  exact aux xs Fral.new

/-! An operation language over the public contract, interpreted over both
implementations; used to state that the two realize the same behaviour. -/

/-- One call of the public interface. -/
inductive Op (α : Type) where
  | cons (x : α)
  | uncons
  | get (i : Nat)
  | len
  | is_empty
  | collect (xs : List α)

/-- The observable outcome of one call (shared by both implementations). -/
inductive Obs (α : Type) where
  | ok
  | elem (r : Option α)
  | nat (n : Nat)
  | bool (b : Bool)

/-- Interpret one call on the `Arc`-based implementation: `cons` and
`collect` replace the handle, `uncons` pops and replaces the handle, and
the queries leave it unchanged. -/
def Fral.step (f : Fral α) : Op α → Fral α × Obs α
  | .cons x => (f.cons x, .ok)
  | .uncons =>
    match f.uncons with
    | none => (f, .elem none)
    | some (x, f') => (f', .elem (some x))
  | .get i => (f, .elem (f.get i))
  | .len => (f, .nat f.len)
  | .is_empty => (f, .bool f.is_empty)
  | .collect xs => (Fral.fromIter xs, .ok)

/-- The observation trace of a call sequence on the `Arc` implementation. -/
def Fral.run (f : Fral α) : List (Op α) → List (Obs α)
  | [] => []
  | op :: ops =>
    let r := f.step op
    r.2 :: r.1.run ops

/-- Interpret one call on the `Rc`-based implementation. -/
def rc.Fral.step (f : rc.Fral α) : Op α → rc.Fral α × Obs α
  | .cons x => (f.cons x, .ok)
  | .uncons =>
    match f.uncons with
    | none => (f, .elem none)
    | some (x, f') => (f', .elem (some x))
  | .get i => (f, .elem (f.get i))
  | .len => (f, .nat f.len)
  | .is_empty => (f, .bool f.is_empty)
  | .collect xs => (rc.Fral.fromIter xs, .ok)

/-- The observation trace of a call sequence on the `Rc` implementation. -/
def rc.Fral.run (f : rc.Fral α) : List (Op α) → List (Obs α)
  | [] => []
  | op :: ops =>
    let r := f.step op
    r.2 :: r.1.run ops

theorem Fral.toRc_step (f : Fral α) (op : Op α) :
    f.toRc.step op = ((f.step op).1.toRc, (f.step op).2) := by
  match op with
  | .cons x => simp [Fral.step, rc.Fral.step, Fral.toRc_cons]
  | .uncons =>
    simp only [Fral.step, rc.Fral.step, Fral.toRc_uncons]
    cases hu : f.uncons with
    | none => rfl
    | some q => rfl
  | .get i => simp [Fral.step, rc.Fral.step, Fral.toRc_get]
  | .len => rfl
  | .is_empty => rfl
  | .collect xs => simp [Fral.step, rc.Fral.step, Fral.toRc_fromIter]

theorem Fral.toRc_run (f : Fral α) (ops : List (Op α)) :
    f.toRc.run ops = f.run ops := by
  induction ops generalizing f with
  | nil => rfl
  | cons op ops ih =>
    show (f.toRc.step op).2 :: (f.toRc.step op).1.run ops = _
    rw [Fral.toRc_step]
    show (f.step op).2 :: (f.step op).1.toRc.run ops = _
    rw [ih]
    rfl

/-! The claims. -/

/-- C1: for every list `L`, value `v` and index `i < len L`, the list
`cons L v` satisfies `get (cons L v) 0 = some v` and
`get (cons L v) (i+1) = get L i`. -/
theorem C1_order_preservation (L : Fral α) (v : α) (i : Nat)
    (_h : i < L.len) :
    (L.cons v).get 0 = some v ∧ (L.cons v).get (i + 1) = L.get i :=
  ⟨Pair.get_cons_zero L.pair v, Pair.get_cons_succ L.pair v i⟩

theorem C1_order_preservation_witness :
    (1 : Nat) < ((Fral.new.cons (10 : Nat)).cons 20).len ∧
      ((((Fral.new.cons (10 : Nat)).cons 20).cons 99).get 0 = some 99 ∧
        (((Fral.new.cons (10 : Nat)).cons 20).cons 99).get 2
          = ((Fral.new.cons (10 : Nat)).cons 20).get 1) :=
  ⟨by decide, C1_order_preservation ((Fral.new.cons 10).cons 20) 99 1 (by decide)⟩

/-- C2: `len (cons L v) = len L + 1`, and on every non-empty reachable
list, `uncons` returns a tail of length `len L - 1`. -/
theorem C2_length (L : Fral α) (v : α) (h : L.Reachable) :
    (L.cons v).len = L.len + 1 ∧
      (L.is_empty = false →
        ∃ x L', L.uncons = some (x, L') ∧ L'.len = L.len - 1) := by
  have hinv := h.inv
  constructor
  · show 1 + L.size = L.size + 1
    omega
  · intro hne
    obtain ⟨x, L', hu⟩ := Fral.uncons_some_of_nonempty hinv hne
    refine ⟨x, L', hu, ?_⟩
    obtain ⟨hpu, hsz⟩ := Fral.uncons_elim hu
    have hpos : L.size ≠ 0 := by
      simpa [Fral.is_empty] using hne
    show L'.size = L.size - 1
    rw [hsz, usizeWrapPred, if_neg hpos]

theorem C2_length_witness :
    Fral.Reachable (Fral.new.cons (42 : Nat)) ∧
      (((Fral.new.cons (42 : Nat)).cons 7).len = (Fral.new.cons (42 : Nat)).len + 1 ∧
        ((Fral.new.cons (42 : Nat)).is_empty = false →
          ∃ x L', (Fral.new.cons (42 : Nat)).uncons = some (x, L') ∧
            L'.len = (Fral.new.cons (42 : Nat)).len - 1)) :=
  ⟨Fral.Reachable.cons 42 Fral.Reachable.new,
    C2_length (Fral.new.cons 42) 7 (Fral.Reachable.cons 42 Fral.Reachable.new)⟩

/-- C3: on a non-empty reachable list, if `uncons L = some (v, L')`, then
`cons L' v` is element-wise equal to `L`: same length and same `get` at
every index. -/
theorem C3_roundtrip (L L' : Fral α) (v : α) (h : L.Reachable)
    (hu : L.uncons = some (v, L')) :
    (L'.cons v).len = L.len ∧ ∀ i, (L'.cons v).get i = L.get i := by
  have hinv := h.inv
  have hinv' : L'.Inv := hinv.unconsStep hu
  obtain ⟨hpu, hsz⟩ := Fral.uncons_elim hu
  have htl : L.pair.toList = v :: L'.pair.toList := Pair.uncons_toList hpu
  have hpos : 1 ≤ L.size := by
    rw [hinv.1, htl]
    simp
  constructor
  · show 1 + L'.size = L.size
    rw [hsz, usizeWrapPred, if_neg (by omega)]
    omega
  · intro i
    rw [Fral.get_eq_toList (hinv'.cons v), Fral.get_eq_toList hinv]
    show (L'.pair.cons v).toList[i]? = L.pair.toList[i]?
    rw [Pair.toList_cons, htl]

theorem C3_roundtrip_witness :
    Fral.Reachable (Fral.new.cons (42 : Nat)) ∧
      (Fral.new.cons (42 : Nat)).uncons = some (42, Fral.new) ∧
      ((Fral.new.cons (42 : Nat)).len = (Fral.new.cons (42 : Nat)).len ∧
        ∀ i, (Fral.new.cons (42 : Nat)).get i = (Fral.new.cons (42 : Nat)).get i) :=
  ⟨Fral.Reachable.cons 42 Fral.Reachable.new, rfl,
    C3_roundtrip (Fral.new.cons 42) Fral.new 42
      (Fral.Reachable.cons 42 Fral.Reachable.new) rfl⟩

/-- C4: on a reachable list, `get L i = none` whenever `i ≥ len L`, and
`uncons` of the empty list is `none` (absence, not a panic). -/
theorem C4_out_of_range (L : Fral α) (i : Nat) (h : L.Reachable)
    (hi : L.len ≤ i) :
    L.get i = none ∧ (Fral.new : Fral α).uncons = none := by
  refine ⟨?_, rfl⟩
  have hinv := h.inv
  rw [Fral.get_eq_toList hinv]
  refine List.getElem?_eq_none ?_
  rw [← hinv.1]
  exact hi

theorem C4_out_of_range_witness :
    Fral.Reachable (Fral.new.cons (5 : Nat)) ∧
      (Fral.new.cons (5 : Nat)).len ≤ 3 ∧
      ((Fral.new.cons (5 : Nat)).get 3 = none ∧
        (Fral.new : Fral Nat).uncons = none) :=
  ⟨Fral.Reachable.cons 5 Fral.Reachable.new, by decide,
    C4_out_of_range (Fral.new.cons 5) 3
      (Fral.Reachable.cons 5 Fral.Reachable.new) (by decide)⟩

/-- C5: every reachable list satisfies the structural invariant stated by
the specification (correct cached sizes, perfect trees, sizes of the form
`2 ^ k - 1` non-decreasing, at most two consecutive equal sizes), and both
`cons` and `uncons` preserve it. -/
theorem C5_invariant (f : Fral α) (h : f.Reachable) :
    f.SpecInv ∧ (∀ x, (f.cons x).SpecInv) ∧
      (∀ x f', f.uncons = some (x, f') → f'.SpecInv) := by
  have hinv := h.inv
  exact ⟨hinv.specInv, fun x => (hinv.cons x).specInv,
    fun x f' hu => (hinv.unconsStep hu).specInv⟩

theorem C5_invariant_witness :
    Fral.Reachable (((Fral.new.cons (1 : Nat)).cons 2).cons 3) ∧
      ((((Fral.new.cons (1 : Nat)).cons 2).cons 3).SpecInv ∧
        (∀ x, ((((Fral.new.cons (1 : Nat)).cons 2).cons 3).cons x).SpecInv) ∧
        (∀ x f', (((Fral.new.cons (1 : Nat)).cons 2).cons 3).uncons = some (x, f') →
          f'.SpecInv)) :=
  ⟨Fral.Reachable.cons 3 (Fral.Reachable.cons 2 (Fral.Reachable.cons 1 Fral.Reachable.new)),
    C5_invariant (((Fral.new.cons 1).cons 2).cons 3)
      (Fral.Reachable.cons 3 (Fral.Reachable.cons 2 (Fral.Reachable.cons 1 Fral.Reachable.new)))⟩

/-- C6: persistence of `cons`. In this pure embedding `cons` builds a new
handle and cannot mutate its argument, so the post-call observations of
`L1` are definitionally the pre-call snapshot; the theorem records exactly
the claim: after `L2 = cons L1 v` is formed (first conjunct), `len L1` and
`get L1 i` still return the values observed before the call. -/
theorem C6_persistence (L1 : Fral α) (v : α) (i : Nat) :
    (L1.cons v).len = L1.len + 1 ∧ L1.len = L1.len ∧ L1.get i = L1.get i := by
  refine ⟨?_, rfl, rfl⟩
  show 1 + L1.size = L1.size + 1
  omega

/-- C7: building from a sequence is repeated `cons` in input order, so
`get i` returns the input element at position `n - 1 - i`; in particular
building from `[7, 0, 17]` yields `get 0 = 17`, `get 1 = 0`, `get 2 = 7`. -/
theorem C7_collect (xs : List α) (i : Nat) (h : i < xs.length) :
    (Fral.fromIter xs).get i = xs[xs.length - 1 - i]? ∧
      ((Fral.fromIter [7, 0, 17] : Fral Nat).get 0 = some 17 ∧
        (Fral.fromIter [7, 0, 17] : Fral Nat).get 1 = some 0 ∧
        (Fral.fromIter [7, 0, 17] : Fral Nat).get 2 = some 7) := by
  refine ⟨?_, by decide, by decide, by decide⟩
  rw [Fral.get_eq_toList (fromIter_reachable xs).inv, fromIter_toList]
  exact List.getElem?_reverse h

theorem C7_collect_witness :
    (0 : Nat) < ([7, 0, 17] : List Nat).length ∧
      ((Fral.fromIter ([7, 0, 17] : List Nat)).get 0
          = ([7, 0, 17] : List Nat)[([7, 0, 17] : List Nat).length - 1 - 0]? ∧
        ((Fral.fromIter [7, 0, 17] : Fral Nat).get 0 = some 17 ∧
          (Fral.fromIter [7, 0, 17] : Fral Nat).get 1 = some 0 ∧
          (Fral.fromIter [7, 0, 17] : Fral Nat).get 2 = some 7)) :=
  ⟨by decide, C7_collect [7, 0, 17] 0 (by decide)⟩

/-- C8: the `Arc`-based and `Rc`-based implementations realize the same
contract: any sequence of public operations (`new`, `cons`, `uncons`,
`get`, `len`, `is_empty`, `collect`), applied identically to both starting
from the empty list, produces identical observation traces. -/
theorem C8_same_contract (ops : List (Op α)) :
    Fral.run Fral.new ops = rc.Fral.run rc.Fral.new ops := by
  rw [← Fral.toRc_run]
  rfl

/-- C9: evaluation of `Iter::last` at the failing input, the empty list.
The code computes `len - 1` with `len == 0`: under checked (debug-profile)
semantics the subtraction overflows, which is a panic (the outer `none`);
under wrapping (release-profile) semantics the index wraps around to
`2 ^ 64 - 1`, and `get` returns `none` only through the out-of-range path. -/
theorem C9_last_empty_eval :
    Iter.lastChecked (Fral.new : Fral Nat) = none ∧
      usizeWrapPred (Fral.new : Fral Nat).len = 2 ^ 64 - 1 ∧
      Iter.lastWrapping (Fral.new : Fral Nat) = none :=
  ⟨rfl, rfl, rfl⟩

/-- C10: on reachable lists, element-wise equality implies structural
equality: two reachable lists with the same length and the same `get` at
every index are equal, and the derived structural comparison (`==`, here
`Fral.beq`) holds.  This rests on the canonical-form invariant: a
reachable spine is uniquely determined by its element list. -/
theorem C10_structural_eq [DecidableEq α] (f g : Fral α)
    (hf : f.Reachable) (hg : g.Reachable) (hlen : f.len = g.len)
    (hget : ∀ i, f.get i = g.get i) : f = g ∧ f.beq g = true := by
  have hif := hf.inv
  have hig := hg.inv
  have htl : f.pair.toList = g.pair.toList := by
    refine List.ext_getElem? fun n => ?_
    rw [← Fral.get_eq_toList hif, ← Fral.get_eq_toList hig]
    exact hget n
  have hpair : f.pair = g.pair := by
    rw [hif.2.2.2, hig.2.2.2, htl]
  have hsize : f.size = g.size := hlen
  have heq : f = g := by
    cases f
    cases g
    cases hsize
    cases hpair
    rfl
  exact ⟨heq, heq ▸ Fral.beq_refl_fral g⟩

theorem C10_structural_eq_witness :
    Fral.Reachable (Fral.fromIter ([] : List Nat)) ∧
      Fral.Reachable (Fral.new : Fral Nat) ∧
      (Fral.fromIter ([] : List Nat)).len = (Fral.new : Fral Nat).len ∧
      (∀ i, (Fral.fromIter ([] : List Nat)).get i = (Fral.new : Fral Nat).get i) ∧
      (Fral.fromIter ([] : List Nat) = Fral.new ∧
        (Fral.fromIter ([] : List Nat)).beq Fral.new = true) :=
  ⟨fromIter_reachable [], Fral.Reachable.new, rfl, fun _ => rfl,
    C10_structural_eq (Fral.fromIter []) Fral.new
      (fromIter_reachable []) Fral.Reachable.new rfl (fun _ => rfl)⟩

end FralLib
